import Mathlib

set_option maxRecDepth 20000

/-!
Shallow embedding of `src/app.py` (Semantify 2.0 – Semantic Web Ontology &
Service Studio).

The Streamlit UI is modelled as explicit state passing: the per-session store
(the `st.session_state` keys `concepts`, `relations`, `rdf`, `owl`) is a
`Store`, absent before the first successful generation (`Option Store`), and
each button handler is a function `Option Store → input → Option Store × Display`.

Python strings are `List Char` (wrapped in `String` at interfaces); the
character classes model the ASCII fragment of Python's semantics, which covers
every input the claims speak about.  The external rdflib library is abstracted
at the statement-set level: a parsed RDF graph is its set of statements
(rdflib's `Graph.add` deduplicates), and serialize/parse round-trips are the
identity on that set.
-/

namespace Semantify

/-- Python regex class `[A-Z]`. -/
def isPyUpper (c : Char) : Bool := 'A' ≤ c && c ≤ 'Z'

/-- Python regex class `[a-z]`. -/
def isPyLower (c : Char) : Bool := 'a' ≤ c && c ≤ 'z'

/-- Python regex class `[0-9]`. -/
def isPyDigit (c : Char) : Bool := '0' ≤ c && c ≤ '9'

/-- Python regex word character (ASCII fragment): letters, digits, underscore.
Word boundaries `\b` in `re.findall(r'\b[A-Z]?[a-z]{3,}\b', s)` are defined
from this class. -/
def isWordChar (c : Char) : Bool := isPyUpper c || isPyLower c || isPyDigit c || c == '_'

/-- Python `str` whitespace (ASCII fragment): what `str.strip()` strips and
`str.split()` splits on. -/
def isPySpace (c : Char) : Bool :=
  c == ' ' || c == '\t' || c == '\n' || c == '\r' || c == '\x0b' || c == '\x0c'

/-- The sentence delimiters of `re.split(r'[.?!]', user_text)` (line 34). -/
def isSentDelim (c : Char) : Bool := c == '.' || c == '?' || c == '!'

/-- Split a character list at every character satisfying `p`, keeping empty
fragments: the behaviour of `re.split` on a single-character class. -/
def splitOnP (p : Char → Bool) : List Char → List (List Char)
  | [] => [[]]
  | c :: t =>
    match splitOnP p t with
    | [] => [[c]]
    | w :: ws => if p c then [] :: w :: ws else (c :: w) :: ws

/-- Python `str.strip()` with no argument (ASCII whitespace). -/
def stripL (s : List Char) : List Char :=
  ((s.dropWhile isPySpace).reverse.dropWhile isPySpace).reverse

/-- Python `str.split()` with no separator: split on whitespace runs and
discard empty fragments (line 45, `s.split()`). -/
def pySplitWs (s : List Char) : List (List Char) :=
  (splitOnP isPySpace s).filter (fun w => !w.isEmpty)

/-- Python `str.capitalize()`: first character upper-cased, all remaining
characters lower-cased (ASCII fragment of the Unicode behaviour). -/
def capitalizeL (s : List Char) : List Char :=
  match s with
  | [] => []
  | c :: t => c.toUpper :: t.map Char.toLower

/-- Python `str.lower()` (ASCII fragment). -/
def lowerL (s : List Char) : List Char := s.map Char.toLower

/-- Python `" ".join(parts)` (line 48). -/
def joinSpace : List (List Char) → List Char
  | [] => []
  | [w] => w
  | w :: ws => w ++ ' ' :: joinSpace ws

/-- Python `s.replace(" ", "_")` (lines 66 and 77). -/
def underscoreL (s : List Char) : List Char :=
  s.map (fun c => if c == ' ' then '_' else c)

/-- Word boundary `\b` holds between a word character and this suffix:
the suffix is empty or starts with a non-word character. -/
def boundaryAfter : List Char → Bool
  | [] => true
  | c :: _ => !isWordChar c

/-- Left-to-right scan of `re.findall(r'\b[A-Z]?[a-z]{3,}\b', s)` (line 42).
`prevW` records whether the character immediately before the current suffix is
a word character, so `\b` holds at the current position iff the suffix starts
with a word character and `prevW` is false.  At a boundary the engine first
tries the greedy `[A-Z]` alternative, then the empty one; `[a-z]{3,}` is
greedy, and shortening it can never restore the trailing `\b` (a shorter run
ends between two lowercase letters), so a match is exactly: the maximal
lowercase run after the optional capital has length ≥ 3 and ends at a
boundary.  After a match the scan resumes at the match end; after a failure it
advances one character.  `fuel` only forces termination; `s.length` is always
enough because every step consumes at least one character. -/
def findallGo : Nat → Bool → List Char → List (List Char)
  | 0, _, _ => []
  | _ + 1, _, [] => []
  | fuel + 1, prevW, c :: t =>
    if prevW then
      findallGo fuel (isWordChar c) t
    else if isPyUpper c then
      if 3 ≤ (t.takeWhile isPyLower).length ∧ boundaryAfter (t.dropWhile isPyLower) = true then
        (c :: t.takeWhile isPyLower) :: findallGo fuel true (t.dropWhile isPyLower)
      else
        findallGo fuel true t
    else if isPyLower c then
      if 3 ≤ ((c :: t).takeWhile isPyLower).length ∧
          boundaryAfter ((c :: t).dropWhile isPyLower) = true then
        ((c :: t).takeWhile isPyLower) :: findallGo fuel true ((c :: t).dropWhile isPyLower)
      else
        findallGo fuel true t
    else
      findallGo fuel (isWordChar c) t

/-- `re.findall(r'\b[A-Z]?[a-z]{3,}\b', s)` (line 42). -/
def findall (s : List Char) : List (List Char) := findallGo s.length false s

/-- The list of lower-cased words inserted into the concept set for one
sentence (lines 42–44: `for w in words: concepts.add(w.lower())`). -/
def sentenceConceptWords (s : List Char) : List (List Char) :=
  (findall s).map lowerL

abbrev Rel := String × String × String

/-- The relation appended for one stripped sentence (lines 45–50):
`parts = s.split()`; if `len(parts) >= 3` then
`(parts[0].capitalize(), " ".join(parts[1:-1]), parts[-1].capitalize())`,
otherwise nothing. -/
def sentenceRel? (s : List Char) : Option Rel :=
  let parts := pySplitWs s
  if 3 ≤ parts.length then
    some (⟨capitalizeL (parts.headD [])⟩, ⟨joinSpace (parts.drop 1).dropLast⟩,
          ⟨capitalizeL (parts.getLastD [])⟩)
  else none

structure GenOut where
  concepts : List String
  relations : List Rel
deriving DecidableEq

/-- Python `set.add` on an insertion-ordered model of the concept set:
membership and cardinality agree with the Python set (iteration order of a
CPython set is unspecified, and no claim depends on it). -/
def insertConcept (cs : List String) (w : String) : List String :=
  if w ∈ cs then cs else cs ++ [w]

/-- Body of the Tab-1 `for s in sentences` loop for one raw fragment
(lines 38–50): strip, skip empty, add lower-cased regex matches to the
concept set, append the positional relation when the sentence has ≥ 3
whitespace tokens. -/
def sentenceStep (acc : GenOut) (raw : List Char) : GenOut :=
  let s := stripL raw
  if s.isEmpty then acc
  else
    let cs := (findall s).foldl (fun cs w => insertConcept cs ⟨lowerL w⟩) acc.concepts
    match sentenceRel? s with
    | some r => ⟨cs, acc.relations ++ [r]⟩
    | none => ⟨cs, acc.relations⟩

/-- The Tab-1 extraction loop (lines 34–50): split the input on `[.?!]` and
fold the per-sentence step over the fragments. -/
def generateFold (text : String) : GenOut :=
  (splitOnP isSentDelim text.data).foldl sentenceStep ⟨[], []⟩

/-- An RDF statement (rdflib triple), all terms as URI strings. -/
structure Stmt where
  subj : String
  pred : String
  obj : String
deriving DecidableEq

/-- The fixed namespace `Namespace("http://example.org/")` (line 58). -/
def exNS : String := "http://example.org/"

/-- `RDF.type`. -/
def rdfTypeURI : String := "http://www.w3.org/1999/02/22-rdf-syntax-ns#type"

/-- `RDFS.Class`. -/
def rdfsClassURI : String := "http://www.w3.org/2000/01/rdf-schema#Class"

/-- `URIRef(ex[name])`: concatenation of the fixed namespace and the local
name. -/
def exURI (localName : String) : String := ⟨exNS.data ++ localName.data⟩

/-- `rdflib.Graph.add`: a graph is a set of statements, modelled as a
duplicate-free list. -/
def graphAdd (g : List Stmt) (s : Stmt) : List Stmt := if s ∈ g then g else g ++ [s]

/-- The three statements added for one relation (lines 62–66). -/
def relStmts (r : Rel) : List Stmt :=
  [⟨exURI r.1, rdfTypeURI, rdfsClassURI⟩,
   ⟨exURI r.2.2, rdfTypeURI, rdfsClassURI⟩,
   ⟨exURI r.1, exURI ⟨underscoreL r.2.1.data⟩, exURI r.2.2⟩]

/-- The RDF triple generation loop (lines 57–66). -/
def rdfGraphOf (rels : List Rel) : List Stmt :=
  rels.foldl (fun g r => (relStmts r).foldl graphAdd g) []

/-- `n` occurs in subject or object position of some statement of `g`. -/
def appearsAsNode (n : String) (g : List Stmt) : Bool :=
  g.any (fun st => st.subj == n || st.obj == n)

/-- `f"Class: {c.capitalize()}"` (line 75). -/
def classLine (c : String) : String := ⟨"Class: ".data ++ capitalizeL c.data⟩

/-- The object-property block appended for one relation (line 77). -/
def propBlock (r : Rel) : String :=
  ⟨"ObjectProperty: ".data ++ underscoreL r.2.1.data ++
    "\n  Domain: ".data ++ r.1.data ++ "\n  Range: ".data ++ r.2.2.data⟩

/-- The OWL representation loops (lines 73–79): one class line per concept,
then one object-property block per relation. -/
def owlLines (cs : List String) (rels : List Rel) : List String :=
  cs.map classLine ++ rels.map propBlock

/-- Python `"\n".join(lines)` (line 79). -/
def joinNL : List String → String
  | [] => ""
  | [w] => w
  | w :: ws => ⟨w.data ++ '\n' :: (joinNL ws).data⟩

/-- The session store: the four `st.session_state` values written together on
a successful generation (lines 82–85).  The `rdf` value is modelled as the
statement set of the serialized graph (serialization is delegated to rdflib
and round-trips the statement set). -/
structure Store where
  concepts : List String
  relations : List Rel
  rdf : List Stmt
  owl : String
deriving DecidableEq

/-- What a handler renders to the user. -/
inductive Display where
  | generated (concepts : List String) (rdf : List Stmt) (owl : String)
  | warnEmptyInput
  | warnNoStore
  | queryResults (found : List String)
  | queryNoMatch
  | merged (g : List Stmt)
deriving DecidableEq

/-- The Tab-1 generate handler (lines 33–87): when the stripped text is
non-empty, build concepts/relations/rdf/owl and overwrite the whole store;
otherwise show the empty-input warning and leave the store untouched. -/
def generateStep (st : Option Store) (text : String) : Option Store × Display :=
  if (stripL text.data).isEmpty then
    (st, .warnEmptyInput)
  else
    let out := generateFold text
    let g := rdfGraphOf out.relations
    let owl := joinNL (owlLines out.concepts out.relations)
    (some ⟨out.concepts, out.relations, g, owl⟩, .generated out.concepts g owl)

/-- Python substring containment `needle in hay` on lists of characters. -/
def isSubstr (needle : List Char) : List Char → Bool
  | [] => needle.isEmpty
  | c :: t => needle.isPrefixOf (c :: t) || isSubstr needle t

/-- `f"{subj} --[{pred}]--> {obj}"` (line 140). -/
def fmtRel (r : Rel) : String :=
  ⟨r.1.data ++ " --[".data ++ r.2.1.data ++ "]--> ".data ++ r.2.2.data⟩

/-- The match condition of the query loop (line 139):
`subj.lower() in query.lower() or obj.lower() in query.lower()`. -/
def relMatches (q : String) (r : Rel) : Bool :=
  isSubstr (lowerL r.1.data) (lowerL q.data) || isSubstr (lowerL r.2.2.data) (lowerL q.data)

/-- The `found` accumulation loop of the Run Query handler (lines 137–140). -/
def queryFound (rels : List Rel) (q : String) : List String :=
  rels.foldl (fun acc r => if relMatches q r then acc ++ [fmtRel r] else acc) []

/-- The Tab-3 Run Query handler (lines 134–148): warns when no store exists;
otherwise runs the match loop and shows either the results or the no-match
error notice.  The handler never writes to the session state. -/
def queryStep (st : Option Store) (q : String) : Option Store × Display :=
  match st with
  | none => (none, .warnNoStore)
  | some store =>
    let found := queryFound store.relations q
    (some store, if found.isEmpty then .queryNoMatch else .queryResults found)

/-- The merge loop (lines 163–168) at statement-set level: add every statement
of the uploaded graph to a freshly parsed copy of the base graph (rdflib
parsing of the stored Turtle text is abstracted as the stored statement set). -/
def mergeGraphs (base uploaded : List Stmt) : List Stmt :=
  uploaded.foldl graphAdd base

/-- The Tab-4 merge handler (lines 151–172): displays the merged graph and
writes nothing back to the session state. -/
def mergeStep (st : Option Store) (uploaded : List Stmt) : Option Store × Display :=
  match st with
  | none => (none, .warnNoStore)
  | some store => (some store, .merged (mergeGraphs store.rdf uploaded))

/-- Claim-side notion of the words of a sentence: the maximal runs of word
characters. -/
def wordsOf (s : List Char) : List (List Char) :=
  (splitOnP (fun c => !isWordChar c) s).filter (fun w => !w.isEmpty)

/-- The anchored pattern corresponding to the source regex: an optional single
uppercase letter followed by three or more lowercase letters, covering the
whole word. -/
def anchoredMatch : List Char → Bool
  | [] => false
  | c :: t =>
    if isPyUpper c then decide (3 ≤ t.length) && t.all isPyLower
    else decide (3 ≤ (c :: t).length) && (c :: t).all isPyLower

/-! ### General helper lemmas -/

theorem foldl_ifappend {α β : Type} (p : α → Bool) (f : α → β) :
    ∀ (l : List α) (acc : List β),
      l.foldl (fun acc r => if p r then acc ++ [f r] else acc) acc
        = acc ++ (l.filter p).map f := by
  intro l
  induction l with
  | nil => intro acc; simp
  | cons a l ih =>
    intro acc
    by_cases h : p a
    · simp [h, ih, List.filter_cons]
    · simp [h, ih, List.filter_cons]

theorem mem_graphAdd {g : List Stmt} {s x : Stmt} :
    x ∈ graphAdd g s ↔ x ∈ g ∨ x = s := by
  unfold graphAdd
  by_cases h : s ∈ g
  · simp only [if_pos h]
    constructor
    · exact fun hx => Or.inl hx
    · rintro (hx | rfl)
      · exact hx
      · exact h
  · simp [if_neg h]

theorem mem_foldl_graphAdd :
    ∀ (l : List Stmt) (g : List Stmt) (x : Stmt),
      x ∈ l.foldl graphAdd g ↔ x ∈ g ∨ x ∈ l := by
  intro l
  induction l with
  | nil => intro g x; simp
  | cons s l ih =>
    intro g x
    simp only [List.foldl_cons, ih, mem_graphAdd, List.mem_cons]
    tauto

theorem mem_mergeGraphs {base uploaded : List Stmt} {x : Stmt} :
    x ∈ mergeGraphs base uploaded ↔ x ∈ base ∨ x ∈ uploaded :=
  mem_foldl_graphAdd uploaded base x

theorem mem_rdfGraphOf {rels : List Rel} {x : Stmt} :
    x ∈ rdfGraphOf rels ↔ ∃ r ∈ rels, x ∈ relStmts r := by
  have hgen : ∀ (l : List Rel) (g : List Stmt),
      x ∈ l.foldl (fun g r => (relStmts r).foldl graphAdd g) g
        ↔ x ∈ g ∨ ∃ r ∈ l, x ∈ relStmts r := by
    intro l
    induction l with
    | nil => intro g; simp
    | cons r l ih =>
      intro g
      simp only [List.foldl_cons, ih, mem_foldl_graphAdd, List.mem_cons]
      constructor
      · rintro ((hg | hr) | ⟨r', hr', hx⟩)
        · exact Or.inl hg
        · exact Or.inr ⟨r, Or.inl rfl, hr⟩
        · exact Or.inr ⟨r', Or.inr hr', hx⟩
      · rintro (hg | ⟨r', (rfl | hr'), hx⟩)
        · exact Or.inl (Or.inl hg)
        · exact Or.inl (Or.inr hx)
        · exact Or.inr ⟨r', hr', hx⟩
  simpa using hgen rels []

/-! ### The Tab-1 loop: relations component and concept-set invariants -/

theorem sentenceRel?_nil : sentenceRel? [] = none := by decide

theorem foldl_sentenceStep_relations :
    ∀ (frags : List (List Char)) (acc : GenOut),
      (frags.foldl sentenceStep acc).relations
        = acc.relations ++ frags.filterMap (fun raw => sentenceRel? (stripL raw)) := by
  intro frags
  induction frags with
  | nil => intro acc; simp
  | cons f frags ih =>
    intro acc
    simp only [List.foldl_cons, List.filterMap_cons]
    rw [ih]
    unfold sentenceStep
    by_cases he : (stripL f).isEmpty
    · have h0 : stripL f = [] := by simpa [List.isEmpty_iff] using he
      simp [he, h0, sentenceRel?_nil]
    · cases hr : sentenceRel? (stripL f) with
      | some r => simp [he, hr]
      | none => simp [he, hr]

theorem generateFold_relations (text : String) :
    (generateFold text).relations
      = ((splitOnP isSentDelim text.data).map stripL).filterMap sentenceRel? := by
  unfold generateFold
  rw [foldl_sentenceStep_relations]
  simp only [List.filterMap_map, List.nil_append]
  rfl

theorem insertConcept_nodup {cs : List String} (h : cs.Nodup) (w : String) :
    (insertConcept cs w).Nodup := by
  unfold insertConcept
  by_cases hw : w ∈ cs
  · simpa [hw]
  · rw [if_neg hw, List.nodup_append]
    refine ⟨h, List.nodup_singleton w, ?_⟩
    intro a ha hb
    rw [List.mem_singleton] at hb
    subst hb
    exact hw ha

theorem foldl_insertConcept_nodup :
    ∀ (ws : List (List Char)) (cs : List String), cs.Nodup →
      (ws.foldl (fun cs w => insertConcept cs ⟨lowerL w⟩) cs).Nodup := by
  intro ws
  induction ws with
  | nil => intro cs h; simpa
  | cons w ws ih =>
    intro cs h
    simpa using ih _ (insertConcept_nodup h _)

theorem sentenceStep_concepts_nodup {acc : GenOut} (raw : List Char)
    (h : acc.concepts.Nodup) : (sentenceStep acc raw).concepts.Nodup := by
  unfold sentenceStep
  by_cases he : (stripL raw).isEmpty
  · simpa [he]
  · cases hr : sentenceRel? (stripL raw) with
    | some r => simpa [he, hr] using foldl_insertConcept_nodup _ _ h
    | none => simpa [he, hr] using foldl_insertConcept_nodup _ _ h

theorem generateFold_concepts_nodup (text : String) :
    (generateFold text).concepts.Nodup := by
  unfold generateFold
  have hgen : ∀ (frags : List (List Char)) (acc : GenOut), acc.concepts.Nodup →
      (frags.foldl sentenceStep acc).concepts.Nodup := by
    intro frags
    induction frags with
    | nil => intro acc h; simpa
    | cons f frags ih =>
      intro acc h
      simpa using ih _ (sentenceStep_concepts_nodup f h)
  exact hgen _ ⟨[], []⟩ (by simp)

/-! ### The concept regex: the scanner agrees with the per-word anchored pattern -/

theorem isPyLower_isWordChar {c : Char} (h : isPyLower c = true) : isWordChar c = true := by
  simp [isWordChar, h]

theorem length_dropWhile_le' (p : Char → Bool) (l : List Char) :
    (l.dropWhile p).length ≤ l.length := by
  induction l with
  | nil => simp
  | cons c t ih =>
    by_cases h : p c
    · rw [List.dropWhile_cons_of_pos h]
      exact Nat.le_trans ih (Nat.le_succ _)
    · simp [List.dropWhile_cons_of_neg h]

theorem boundaryAfter_dropWhile_word (l : List Char) :
    boundaryAfter (l.dropWhile isWordChar) = true := by
  induction l with
  | nil => rfl
  | cons c t ih =>
    by_cases h : isWordChar c
    · rw [List.dropWhile_cons_of_pos h]; exact ih
    · simp [List.dropWhile_cons_of_neg h, boundaryAfter,
        Bool.eq_false_iff.mpr h]

theorem dropWhile_word_eq_self_of_boundary {v : List Char}
    (h : boundaryAfter v = true) : v.dropWhile isWordChar = v := by
  cases v with
  | nil => rfl
  | cons c t =>
    have hc : isWordChar c = false := by
      simpa [boundaryAfter] using h
    simp [List.dropWhile_cons_of_neg, hc]

theorem splitOnP_ne_nil (p : Char → Bool) : ∀ s : List Char, splitOnP p s ≠ [] := by
  intro s
  cases s with
  | nil => simp [splitOnP]
  | cons c t =>
    unfold splitOnP
    cases h : splitOnP p t with
    | nil => simp
    | cons w ws => by_cases hc : p c <;> simp [hc]

theorem splitOnP_word_prepend (p : Char → Bool) :
    ∀ (u v w : List Char) (ws : List (List Char)),
      splitOnP p v = w :: ws → (∀ c ∈ u, p c = false) →
      splitOnP p (u ++ v) = (u ++ w) :: ws := by
  intro u
  induction u with
  | nil => intro v w ws h _; simpa using h
  | cons a u ih =>
    intro v w ws h hall
    have ha : p a = false := hall a (by simp)
    have hu : splitOnP p (u ++ v) = (u ++ w) :: ws :=
      ih v w ws h (fun c hc => hall c (by simp [hc]))
    show splitOnP p (a :: (u ++ v)) = ((a :: u) ++ w) :: ws
    unfold splitOnP
    rw [hu]
    simp [ha]

theorem wordsOf_nonword_cons {c : Char} (t : List Char) (h : isWordChar c = false) :
    wordsOf (c :: t) = wordsOf t := by
  unfold wordsOf
  cases hs : splitOnP (fun c => !isWordChar c) t with
  | nil => exact absurd hs (splitOnP_ne_nil _ t)
  | cons w ws =>
    have : splitOnP (fun c => !isWordChar c) (c :: t) = [] :: w :: ws := by
      unfold splitOnP
      rw [hs]
      simp [h]
    rw [this]
    simp

theorem splitOnP_head_nil_of_boundary (v : List Char) (h : boundaryAfter v = true) :
    ∃ ws, splitOnP (fun c => !isWordChar c) v = [] :: ws := by
  cases v with
  | nil => exact ⟨[], rfl⟩
  | cons c t =>
    have hc : isWordChar c = false := by
      simpa [boundaryAfter] using h
    cases hs : splitOnP (fun c => !isWordChar c) t with
    | nil => exact absurd hs (splitOnP_ne_nil _ t)
    | cons w ws =>
      refine ⟨w :: ws, ?_⟩
      unfold splitOnP
      rw [hs]
      simp [hc]

theorem wordsOf_word_prepend {u v : List Char} (hu : u ≠ [])
    (hall : ∀ c ∈ u, isWordChar c = true) (hb : boundaryAfter v = true) :
    wordsOf (u ++ v) = u :: wordsOf v := by
  obtain ⟨ws, hws⟩ := splitOnP_head_nil_of_boundary v hb
  have hpre : splitOnP (fun c => !isWordChar c) (u ++ v) = (u ++ []) :: ws :=
    splitOnP_word_prepend _ u v [] ws hws (fun c hc => by simp [hall c hc])
  unfold wordsOf
  rw [hpre, hws]
  simp [hu]

theorem wordsOf_word_cons {c : Char} (t : List Char) (h : isWordChar c = true) :
    wordsOf (c :: t)
      = (c :: t.takeWhile isWordChar) :: wordsOf (t.dropWhile isWordChar) := by
  have hsplit : c :: t = (c :: t.takeWhile isWordChar) ++ t.dropWhile isWordChar := by
    simp
  rw [hsplit]
  refine wordsOf_word_prepend (by simp) ?_ (boundaryAfter_dropWhile_word t)
  intro d hd
  rcases List.mem_cons.mp hd with rfl | hd'
  · exact h
  · exact List.mem_takeWhile_imp hd'

theorem takeWhile_lower_word (t : List Char)
    (h : (t.takeWhile isWordChar).all isPyLower = true) :
    t.takeWhile isPyLower = t.takeWhile isWordChar
      ∧ t.dropWhile isPyLower = t.dropWhile isWordChar := by
  induction t with
  | nil => exact ⟨rfl, rfl⟩
  | cons c t ih =>
    by_cases hw : isWordChar c
    · rw [List.takeWhile_cons_of_pos hw] at h
      simp only [List.all_cons, Bool.and_eq_true] at h
      obtain ⟨hlc, hrest⟩ := h
      obtain ⟨h1, h2⟩ := ih hrest
      rw [List.takeWhile_cons_of_pos hw, List.dropWhile_cons_of_pos hw,
        List.takeWhile_cons_of_pos hlc, List.dropWhile_cons_of_pos hlc, h1, h2]
      exact ⟨rfl, rfl⟩
    · have hlc : ¬ isPyLower c = true := fun hl => hw (isPyLower_isWordChar hl)
      rw [List.takeWhile_cons_of_neg hw, List.dropWhile_cons_of_neg hw,
        List.takeWhile_cons_of_neg hlc, List.dropWhile_cons_of_neg hlc]
      exact ⟨rfl, rfl⟩

theorem takeDrop_word_of_lower_boundary (t : List Char)
    (hb : boundaryAfter (t.dropWhile isPyLower) = true) :
    t.takeWhile isWordChar = t.takeWhile isPyLower
      ∧ t.dropWhile isWordChar = t.dropWhile isPyLower := by
  induction t with
  | nil => exact ⟨rfl, rfl⟩
  | cons c t ih =>
    by_cases hl : isPyLower c = true
    · rw [List.dropWhile_cons_of_pos hl] at hb
      obtain ⟨h1, h2⟩ := ih hb
      have hw := isPyLower_isWordChar hl
      rw [List.takeWhile_cons_of_pos hw, List.takeWhile_cons_of_pos hl,
        List.dropWhile_cons_of_pos hw, List.dropWhile_cons_of_pos hl, h1, h2]
      exact ⟨rfl, rfl⟩
    · rw [List.dropWhile_cons_of_neg hl] at hb
      have hw : isWordChar c = false := by
        simpa [boundaryAfter] using hb
      rw [List.takeWhile_cons_of_neg hl, List.takeWhile_cons_of_neg (by simp [hw]),
        List.dropWhile_cons_of_neg hl, List.dropWhile_cons_of_neg (by simp [hw])]
      exact ⟨rfl, rfl⟩

theorem findallGo_succ_true (fuel : Nat) (c : Char) (t : List Char) :
    findallGo (fuel + 1) true (c :: t) = findallGo fuel (isWordChar c) t := rfl

theorem findallGo_succ_false (fuel : Nat) (c : Char) (t : List Char) :
    findallGo (fuel + 1) false (c :: t)
      = if isPyUpper c then
          (if 3 ≤ (t.takeWhile isPyLower).length ∧
              boundaryAfter (t.dropWhile isPyLower) = true
           then (c :: t.takeWhile isPyLower) :: findallGo fuel true (t.dropWhile isPyLower)
           else findallGo fuel true t)
        else if isPyLower c then
          (if 3 ≤ ((c :: t).takeWhile isPyLower).length ∧
              boundaryAfter ((c :: t).dropWhile isPyLower) = true
           then ((c :: t).takeWhile isPyLower) ::
                  findallGo fuel true ((c :: t).dropWhile isPyLower)
           else findallGo fuel true t)
        else findallGo fuel (isWordChar c) t := rfl

theorem findallGo_eq :
    ∀ (fuel : Nat) (s : List Char) (prevW : Bool), s.length ≤ fuel →
      findallGo fuel prevW s
        = (wordsOf (cond prevW (s.dropWhile isWordChar) s)).filter anchoredMatch := by
  intro fuel
  induction fuel with
  | zero =>
    intro s prevW h
    have hs : s = [] := List.length_eq_zero.mp (Nat.le_zero.mp h)
    subst hs
    cases prevW <;> simp [findallGo, wordsOf, splitOnP]
  | succ fuel ih =>
    intro s prevW h
    cases s with
    | nil => cases prevW <;> simp [findallGo, wordsOf, splitOnP]
    | cons c t =>
      have hlen : t.length ≤ fuel := by
        simp only [List.length_cons] at h
        omega
      cases prevW with
      | true =>
        rw [findallGo_succ_true]
        by_cases hw : isWordChar c = true
        · rw [hw, ih t true hlen]
          simp only [cond]
          rw [List.dropWhile_cons_of_pos hw]
        · have hw' : isWordChar c = false := by
            simpa using hw
          rw [hw', ih t false hlen]
          simp only [cond]
          rw [List.dropWhile_cons_of_neg (by simp [hw']), wordsOf_nonword_cons t hw']
      | false =>
        rw [findallGo_succ_false]
        simp only [cond]
        by_cases hup : isPyUpper c = true
        · rw [if_pos hup]
          have hwc : isWordChar c = true := by
            simp [isWordChar, hup]
          by_cases hm : 3 ≤ (t.takeWhile isPyLower).length ∧
              boundaryAfter (t.dropWhile isPyLower) = true
          · rw [if_pos hm]
            obtain ⟨hm1, hm2⟩ := hm
            obtain ⟨htk, hdr⟩ := takeDrop_word_of_lower_boundary t hm2
            have hv : (t.dropWhile isPyLower).length ≤ fuel :=
              Nat.le_trans (length_dropWhile_le' _ t) hlen
            rw [ih _ true hv]
            simp only [cond]
            rw [dropWhile_word_eq_self_of_boundary hm2]
            rw [wordsOf_word_cons t hwc, htk, hdr]
            have hanch : anchoredMatch (c :: t.takeWhile isPyLower) = true := by
              simp only [anchoredMatch, if_pos hup, Bool.and_eq_true, decide_eq_true_iff]
              exact ⟨hm1, List.all_takeWhile⟩
            rw [List.filter_cons_of_pos hanch]
          · rw [if_neg hm]
            rw [ih t true hlen]
            simp only [cond]
            rw [wordsOf_word_cons t hwc]
            have hanch : anchoredMatch (c :: t.takeWhile isWordChar) = false := by
              cases hx : anchoredMatch (c :: t.takeWhile isWordChar) with
              | false => rfl
              | true =>
                exfalso
                simp only [anchoredMatch, if_pos hup, Bool.and_eq_true,
                  decide_eq_true_iff] at hx
                obtain ⟨h3, hall⟩ := hx
                obtain ⟨ht1, ht2⟩ := takeWhile_lower_word t hall
                refine hm ⟨?_, ?_⟩
                · rw [ht1]; exact h3
                · rw [ht2]; exact boundaryAfter_dropWhile_word t
            rw [List.filter_cons_of_neg (by simp [hanch])]
        · rw [if_neg hup]
          have hup' : isPyUpper c = false := by simpa using hup
          by_cases hlo : isPyLower c = true
          · rw [if_pos hlo]
            have hwc : isWordChar c = true := isPyLower_isWordChar hlo
            simp only [List.takeWhile_cons_of_pos hlo, List.dropWhile_cons_of_pos hlo,
              List.length_cons]
            by_cases hm : 3 ≤ (t.takeWhile isPyLower).length + 1 ∧
                boundaryAfter (t.dropWhile isPyLower) = true
            · rw [if_pos hm]
              obtain ⟨hm1, hm2⟩ := hm
              obtain ⟨htk, hdr⟩ := takeDrop_word_of_lower_boundary t hm2
              have hv : (t.dropWhile isPyLower).length ≤ fuel :=
                Nat.le_trans (length_dropWhile_le' _ t) hlen
              rw [ih _ true hv]
              simp only [cond]
              rw [dropWhile_word_eq_self_of_boundary hm2]
              rw [wordsOf_word_cons t hwc, htk, hdr]
              have hanch : anchoredMatch (c :: t.takeWhile isPyLower) = true := by
                simp only [anchoredMatch, if_neg (by simp [hup'] :
                    ¬ isPyUpper c = true), Bool.and_eq_true, decide_eq_true_iff,
                  List.all_cons, List.length_cons]
                exact ⟨hm1, hlo, List.all_takeWhile⟩
              rw [List.filter_cons_of_pos hanch]
            · rw [if_neg hm]
              rw [ih t true hlen]
              simp only [cond]
              rw [wordsOf_word_cons t hwc]
              have hanch : anchoredMatch (c :: t.takeWhile isWordChar) = false := by
                cases hx : anchoredMatch (c :: t.takeWhile isWordChar) with
                | false => rfl
                | true =>
                  exfalso
                  simp only [anchoredMatch, if_neg (by simp [hup'] :
                      ¬ isPyUpper c = true), Bool.and_eq_true, decide_eq_true_iff,
                    List.all_cons, List.length_cons] at hx
                  obtain ⟨h3, _, hall⟩ := hx
                  obtain ⟨ht1, ht2⟩ := takeWhile_lower_word t hall
                  refine hm ⟨?_, ?_⟩
                  · rw [ht1]; exact h3
                  · rw [ht2]; exact boundaryAfter_dropWhile_word t
              rw [List.filter_cons_of_neg (by simp [hanch])]
          · rw [if_neg hlo]
            have hlo' : isPyLower c = false := by simpa using hlo
            by_cases hwc : isWordChar c = true
            · rw [hwc, ih t true hlen]
              simp only [cond]
              rw [wordsOf_word_cons t hwc]
              have hanch : anchoredMatch (c :: t.takeWhile isWordChar) = false := by
                simp [anchoredMatch, hup', hlo']
              rw [List.filter_cons_of_neg (by simp [hanch])]
            · have hwc' : isWordChar c = false := by simpa using hwc
              rw [hwc', ih t false hlen]
              simp only [cond]
              rw [wordsOf_nonword_cons t hwc']

theorem findall_eq_wordsOf (s : List Char) :
    findall s = (wordsOf s).filter anchoredMatch := by
  unfold findall
  simpa using findallGo_eq s.length s false (Nat.le_refl _)

theorem stripL_eq_nil_of_all_space : ∀ {l : List Char}, l.all isPySpace = true →
    stripL l = [] := by
  have hdrop : ∀ (l : List Char), l.all isPySpace = true →
      l.dropWhile isPySpace = [] := by
    intro l
    induction l with
    | nil => intro _; rfl
    | cons c t ih =>
      intro h
      simp only [List.all_cons, Bool.and_eq_true] at h
      rw [List.dropWhile_cons_of_pos h.1]
      exact ih h.2
  intro l h
  unfold stripL
  rw [hdrop l h]
  rfl

theorem mem_pySplitWs_ne_nil {s w : List Char} (h : w ∈ pySplitWs s) : w ≠ [] := by
  unfold pySplitWs at h
  have hp := List.of_mem_filter h
  intro he
  subst he
  simp at hp

/-! ### Claims -/

/-- C1 counterexample: the claim says the predicate is the empty string when a
sentence has exactly 3 tokens; on the code the predicate of a 3-token sentence
is `" ".join(parts[1:-1])`, the single (non-empty) middle token: the 3-token
sentence "Dog eats food" yields the relation ("Dog", "eats", "Food"), whose
predicate "eats" is not the empty string. -/
theorem c1_middle_token_counterexample :
    (generateFold "Dog eats food").relations = [("Dog", "eats", "Food")]
    ∧ ("eats" : String) ≠ "" :=
  ⟨by decide, by decide⟩

/-- C1 amended: for every input text, the Tab-1 extraction loop emits exactly
one relation per stripped sentence with at least 3 whitespace tokens (that is
what `sentenceRel?` returns `some` for), in sentence order, and no relation
for any shorter sentence; the predicate is the single-space join of the tokens
strictly between the first and last token — for a sentence with exactly 3
tokens that is the single middle token, which is never the empty string
because `str.split()` only produces non-empty tokens.  In particular the
sentence "Plants absorb sunlight through photosynthesis" yields the relation
("Plants", "absorb sunlight through", "Photosynthesis"). -/
theorem c1_relations_amended (text : String) :
    (generateFold text).relations
      = ((splitOnP isSentDelim text.data).map stripL).filterMap sentenceRel?
    ∧ (∀ (s t0 t1 t2 : List Char), pySplitWs s = [t0, t1, t2] →
        sentenceRel? s = some (⟨capitalizeL t0⟩, ⟨t1⟩, ⟨capitalizeL t2⟩) ∧ t1 ≠ [])
    ∧ (generateFold "Plants absorb sunlight through photosynthesis").relations
      = [("Plants", "absorb sunlight through", "Photosynthesis")] := by
  refine ⟨generateFold_relations text, ?_, by decide⟩
  intro s t0 t1 t2 hp
  constructor
  · simp only [sentenceRel?, hp]
    rw [if_pos (by simp)]
    rfl
  · exact mem_pySplitWs_ne_nil (by rw [hp]; simp)

theorem c1_relations_witness :
    sentenceRel? "Dog eats food".data
      = some (⟨capitalizeL "Dog".data⟩, ⟨"eats".data⟩, ⟨capitalizeL "food".data⟩)
    ∧ "eats".data ≠ [] :=
  (c1_relations_amended "").2.1 "Dog eats food".data "Dog".data "eats".data "food".data
    (by decide)

/-- C2 counterexample: the claim says a word of one uppercase letter followed
by exactly two lowercase letters ("Dog", total length 3) is extracted as a
concept; on the code it is not: the regex `[A-Z]?[a-z]{3,}` needs at least
three lowercase letters after the optional capital, so "Dog runs fast" yields
only the concepts "runs" and "fast" and not "dog". -/
theorem c2_dog_not_extracted :
    (generateFold "Dog runs fast").concepts = ["runs", "fast"]
    ∧ ("dog" : String) ∉ (generateFold "Dog runs fast").concepts :=
  ⟨by decide, by decide⟩

/-- C2 amended: for every sentence, the concept extractor inserts into the
concept set the lower-casings of exactly those maximal word-character runs
that consist of an optional single uppercase letter followed by THREE or more
lowercase letters (minimum total length 3 for all-lowercase words, 4 for
capital-initial words), so a capital letter with exactly two lowercase
letters is not extracted. -/
theorem c2_concepts_are_anchored_words (s : List Char) :
    sentenceConceptWords s = ((wordsOf s).filter anchoredMatch).map lowerL := by
  unfold sentenceConceptWords
  rw [findall_eq_wordsOf]

/-- C3 counterexample: the claim says subject/object keep all characters after
the first exactly as originally cased, so a first token "DNA" should yield
subject "DNA"; the code uses Python `str.capitalize`, which lower-cases the
rest, yielding "Dna". -/
theorem c3_dna_counterexample :
    (generateFold "DNA encodes proteins").relations = [("Dna", "encodes", "Proteins")]
    ∧ ("Dna" : String) ≠ "DNA" :=
  ⟨by decide, by decide⟩

/-- C3 amended: for every sentence with at least 3 whitespace tokens, the
emitted subject is the first token with its first character upper-cased and
all remaining characters LOWER-cased (Python `str.capitalize`), and the
object is the last token transformed the same way ("DNA" yields "Dna"). -/
theorem c3_capitalize_first_upper_rest_lower (s : List Char)
    (parts : List (List Char)) (hp : pySplitWs s = parts) (h3 : 3 ≤ parts.length) :
    sentenceRel? s
      = some (⟨capitalizeL (parts.headD [])⟩, ⟨joinSpace (parts.drop 1).dropLast⟩,
              ⟨capitalizeL (parts.getLastD [])⟩)
    ∧ ∀ (c : Char) (cs : List Char),
        capitalizeL (c :: cs) = c.toUpper :: cs.map Char.toLower := by
  constructor
  · simp only [sentenceRel?, hp, if_pos h3]
  · intro c cs
    rfl

theorem c3_capitalize_witness :
    (sentenceRel? "DNA encodes proteins".data
      = some (⟨capitalizeL ((["DNA".data, "encodes".data, "proteins".data]
            : List (List Char)).headD [])⟩,
          ⟨joinSpace ((["DNA".data, "encodes".data, "proteins".data]
            : List (List Char)).drop 1).dropLast⟩,
          ⟨capitalizeL ((["DNA".data, "encodes".data, "proteins".data]
            : List (List Char)).getLastD [])⟩))
    ∧ ∀ (c : Char) (cs : List Char),
        capitalizeL (c :: cs) = c.toUpper :: cs.map Char.toLower :=
  c3_capitalize_first_upper_rest_lower "DNA encodes proteins".data
    ["DNA".data, "encodes".data, "proteins".data] (by decide) (by decide)

/-- C4 counterexample: in the graph projected from the store with the single
relation ("Plants", "absorb", "Oxygen"), the generic Class-type node appears
in object position of the two type statements, yet it has no type assertion
of its own, so not EVERY node in subject or object position is typed. -/
theorem c4_class_node_untyped :
    appearsAsNode rdfsClassURI (rdfGraphOf [("Plants", "absorb", "Oxygen")]) = true
    ∧ (⟨rdfsClassURI, rdfTypeURI, rdfsClassURI⟩ : Stmt)
        ∉ rdfGraphOf [("Plants", "absorb", "Oxygen")] :=
  ⟨by decide, by decide⟩

/-- C4 amended: every node that appears in subject or object position of some
statement of the projected graph, OTHER THAN the generic Class-type node
itself, has a type assertion to the Class type (each relation contributes a
subject-type statement, an object-type statement and one edge statement). -/
theorem c4_nodes_typed (rels : List Rel) (n : String)
    (h1 : appearsAsNode n (rdfGraphOf rels) = true) (h2 : n ≠ rdfsClassURI) :
    (⟨n, rdfTypeURI, rdfsClassURI⟩ : Stmt) ∈ rdfGraphOf rels := by
  unfold appearsAsNode at h1
  rw [List.any_eq_true] at h1
  obtain ⟨st, hst, hn⟩ := h1
  rw [mem_rdfGraphOf] at hst
  obtain ⟨r, hr, hmem⟩ := hst
  simp only [relStmts, List.mem_cons, List.mem_singleton,
    List.not_mem_nil, or_false] at hmem
  have hsub : n = exURI r.1 ∨ n = exURI r.2.2 := by
    rcases hmem with rfl | rfl | rfl <;>
      simp only [Bool.or_eq_true, beq_iff_eq] at hn
    · rcases hn with h | h
      · exact Or.inl h.symm
      · exact absurd h.symm h2
    · rcases hn with h | h
      · exact Or.inr h.symm
      · exact absurd h.symm h2
    · rcases hn with h | h
      · exact Or.inl h.symm
      · exact Or.inr h.symm
  rcases hsub with rfl | rfl
  · exact mem_rdfGraphOf.mpr ⟨r, hr, by simp [relStmts]⟩
  · exact mem_rdfGraphOf.mpr ⟨r, hr, by simp [relStmts]⟩

theorem c4_nodes_typed_witness :
    (appearsAsNode "http://example.org/Plants"
        (rdfGraphOf [("Plants", "absorb", "Oxygen")]) = true
      ∧ ("http://example.org/Plants" : String) ≠ rdfsClassURI)
    ∧ (⟨"http://example.org/Plants", rdfTypeURI, rdfsClassURI⟩ : Stmt)
        ∈ rdfGraphOf [("Plants", "absorb", "Oxygen")] :=
  ⟨⟨by decide, by decide⟩, c4_nodes_typed _ _ (by decide) (by decide)⟩

/-- C5: the query loop returns exactly the relations whose subject or object,
compared case-insensitively, occurs as a substring of the question text, in
the original relation order (formatted by `fmtRel`); the result is empty
exactly when no relation matches, and that empty list is what signals "no
match". -/
theorem c5_query_is_filter (rels : List Rel) (q : String) :
    queryFound rels q = (rels.filter (relMatches q)).map fmtRel
    ∧ (queryFound rels q = [] ↔ ∀ r ∈ rels, relMatches q r = false) := by
  have h : queryFound rels q = (rels.filter (relMatches q)).map fmtRel := by
    unfold queryFound
    simpa using foldl_ifappend (relMatches q) fmtRel rels []
  refine ⟨h, ?_⟩
  rw [h]
  simp [List.map_eq_nil_iff, List.filter_eq_nil_iff]

/-- C6: for every empty or whitespace-only input text, the generate handler
produces the empty-input warning (not an exception) and returns the
pre-existing store exactly as it was. -/
theorem c6_blank_input_no_mutation (st : Option Store) (text : String)
    (h : text.data.all isPySpace = true) :
    generateStep st text = (st, Display.warnEmptyInput) := by
  unfold generateStep
  rw [stripL_eq_nil_of_all_space h]
  rfl

theorem c6_blank_input_witness :
    (" \t\n".data.all isPySpace = true)
    ∧ generateStep
        (some ⟨["plants"], [("Plants", "absorb", "Oxygen")],
          rdfGraphOf [("Plants", "absorb", "Oxygen")], "owl"⟩) " \t\n"
      = (some ⟨["plants"], [("Plants", "absorb", "Oxygen")],
          rdfGraphOf [("Plants", "absorb", "Oxygen")], "owl"⟩, Display.warnEmptyInput) :=
  ⟨by decide, c6_blank_input_no_mutation _ _ (by decide)⟩

/-- C7 counterexample: the claim says a concept recurring via multiple
relations produces duplicate "Class:" lines; on the code the class lines come
from the deduplicated concept set, so in
"Oxygen helps plants. Plants make oxygen." the concept oxygen recurs via both
relations yet "Class: Oxygen" appears exactly once in the OWL listing. -/
theorem c7_class_lines_deduplicated :
    (generateFold "Oxygen helps plants. Plants make oxygen.").relations
      = [("Oxygen", "helps", "Plants"), ("Plants", "make", "Oxygen")]
    ∧ ((owlLines (generateFold "Oxygen helps plants. Plants make oxygen.").concepts
          (generateFold "Oxygen helps plants. Plants make oxygen.").relations).count
        "Class: Oxygen") = 1 :=
  ⟨by decide, by decide⟩

/-- C7 amended: the OWL listing is one "Class:" line per concept of the
(deduplicated) concept set followed by one object-property block per relation;
the relation side is NOT deduplicated (a relation occurring k times yields at
least k copies of its property block), while the concept set is duplicate-free,
so duplicate class declarations do not occur for a concept that recurs via
multiple relations. -/
theorem c7_owl_listing (text : String) :
    owlLines (generateFold text).concepts (generateFold text).relations
      = (generateFold text).concepts.map classLine
        ++ (generateFold text).relations.map propBlock
    ∧ (generateFold text).concepts.Nodup
    ∧ ∀ r : Rel, (generateFold text).relations.count r
        ≤ (owlLines (generateFold text).concepts (generateFold text).relations).count
            (propBlock r) := by
  refine ⟨rfl, generateFold_concepts_nodup text, ?_⟩
  intro r
  unfold owlLines
  rw [List.count_append]
  exact Nat.le_trans (List.count_le_count_map _ propBlock r) (Nat.le_add_left _ _)

/-- C8: for every base graph A and uploaded graph B (as parsed statement
sets), the merged graph's statement set is exactly the union of A's and B's
statements, and that set is the same regardless of which graph is the base. -/
theorem c8_merge_is_union (A B : List Stmt) (x : Stmt) :
    (x ∈ mergeGraphs A B ↔ x ∈ A ∨ x ∈ B)
    ∧ (x ∈ mergeGraphs A B ↔ x ∈ mergeGraphs B A) := by
  refine ⟨mem_mergeGraphs, ?_⟩
  rw [mem_mergeGraphs, mem_mergeGraphs]
  tauto

/-- C9 counterexample: on a blank question the Run Query handler does not
surface an empty-input warning: it executes the match loop and reports the
no-match error notice. -/
theorem c9_blank_query_runs_match :
    queryStep (some ⟨["plants", "oxygen"], [("Plants", "absorb", "Oxygen")], [], ""⟩) ""
      = (some ⟨["plants", "oxygen"], [("Plants", "absorb", "Oxygen")], [], ""⟩,
         Display.queryNoMatch)
    ∧ Display.queryNoMatch ≠ Display.warnEmptyInput :=
  ⟨by decide, by decide⟩

/-- C9 amended: the Run Query handler has no blank-question guard: when the
question is blank it executes the substring match and, since every stored
relation endpoint is a non-empty string, reports the no-match error notice;
the store is left unchanged. -/
theorem c9_blank_query_no_guard (store : Store)
    (h : ∀ r ∈ store.relations, r.1 ≠ "" ∧ r.2.2 ≠ "") :
    queryStep (some store) "" = (some store, Display.queryNoMatch) := by
  have hne : ∀ (s : String), s ≠ "" → (lowerL s.data).isEmpty = false := by
    intro s hs
    cases hd : s.data with
    | nil =>
      exfalso
      apply hs
      cases s with
      | mk l => cases hd; rfl
    | cons a l => simp [lowerL, hd]
  have hf : queryFound store.relations "" = [] := by
    have heq : queryFound store.relations ""
        = (store.relations.filter (relMatches "")).map fmtRel := by
      unfold queryFound
      simpa using foldl_ifappend (relMatches "") fmtRel store.relations []
    have hfil : store.relations.filter (relMatches "") = [] := by
      rw [List.filter_eq_nil_iff]
      intro r hr
      obtain ⟨h1, h2⟩ := h r hr
      show ¬ relMatches "" r = true
      unfold relMatches
      have e1 : isSubstr (lowerL r.1.data) (lowerL "".data)
          = (lowerL r.1.data).isEmpty := rfl
      have e2 : isSubstr (lowerL r.2.2.data) (lowerL "".data)
          = (lowerL r.2.2.data).isEmpty := rfl
      rw [e1, e2, hne _ h1, hne _ h2]
      simp
    rw [heq, hfil]
    rfl
  simp only [queryStep, hf]
  rfl

theorem c9_blank_query_witness :
    (∀ r ∈ (Store.mk ["plants"] [("Plants", "absorb", "Oxygen")] [] "").relations,
        r.1 ≠ "" ∧ r.2.2 ≠ "")
    ∧ queryStep (some ⟨["plants"], [("Plants", "absorb", "Oxygen")], [], ""⟩) ""
        = (some ⟨["plants"], [("Plants", "absorb", "Oxygen")], [], ""⟩,
           Display.queryNoMatch) :=
  ⟨by decide, c9_blank_query_no_guard _ (by decide)⟩

/-- C10: a merge never writes back to the session store: the stored state
after the merge handler is exactly the state before, and the merged graph is
produced only for display. -/
theorem c10_merge_preserves_store (store : Store) (uploaded : List Stmt) :
    (mergeStep (some store) uploaded).1 = some store
    ∧ (mergeStep (some store) uploaded).2
        = Display.merged (mergeGraphs store.rdf uploaded) :=
  ⟨rfl, rfl⟩

end Semantify
